import Mathlib

/-! Verification of the mindmap layout engine of Habbit-Nested
(`src/components/TaskList.tsx`, the `useMindmapLayout` hook and the
`MindmapView` component).

Machine numbers of the source are modelled as exact rationals (`ℚ`);
the source constants `NODE_WIDTH`, `NODE_HEIGHT`, `H_SPACING`,
`V_SPACING` and the literals `0.001`, `0.2`, `0.9`, `100`, `60` are all
exactly representable.
-/

namespace Habbit

/-- Source constant `NODE_WIDTH = 256`. -/
def NODE_WIDTH : ℚ := 256

/-- Source constant `NODE_HEIGHT = 80`. -/
def NODE_HEIGHT : ℚ := 80

/-- Source constant `H_SPACING = 120`. -/
def H_SPACING : ℚ := 120

/-- Source constant `V_SPACING = 60`. -/
def V_SPACING : ℚ := 60

/-- The task tree as read by the layout engine: only `id`, `collapsed`
and the ordered `children` matter (`Task` in `types.ts`; the other
fields — title, completion, timer — are irrelevant to layout). -/
inductive Task where
  | mk (id : String) (collapsed : Bool) (children : List Task)

def Task.id : Task → String
  | .mk i _ _ => i

def Task.collapsed : Task → Bool
  | .mk _ c _ => c

def Task.children : Task → List Task
  | .mk _ _ cs => cs

mutual

/-- Pass 1 of `useMindmapLayout` (`calculateSubtreeHeight`): a collapsed
node or a leaf has height `NODE_HEIGHT`; otherwise the children's summed
heights plus `(children.length - 1) * V_SPACING`.  The source memoizes
per id inside one pass; each node is visited once, so the memo table has
no semantic effect and the pure recursion embeds it. -/
def subtreeHeight : Task → ℚ
  | .mk _ c cs =>
    if c || cs.isEmpty then NODE_HEIGHT
    else heightsSum cs + ((cs.length : ℚ) - 1) * V_SPACING

/-- Embeds `task.children.map(calculateSubtreeHeight).reduce((sum, h) => sum + h, 0)`. -/
def heightsSum : List Task → ℚ
  | [] => 0
  | t :: ts => subtreeHeight t + heightsSum ts

end

/-- One element of the `positions` array pushed by the `layout` closure. -/
structure NodePosition where
  task : Task
  x : ℚ
  y : ℚ
  depth : ℕ

mutual

/-- Pass 2 of `useMindmapLayout` (the `layout` closure): push the node at
`x = depth * (NODE_WIDTH + H_SPACING)`,
`y = startY + subtreeHeight/2 - NODE_HEIGHT/2`, then recurse into the
children of an expanded node, advancing the running `childStartY` by
each child's subtree height plus `V_SPACING`. -/
def layout : Task → ℕ → ℚ → List NodePosition
  | .mk i c cs, depth, startY =>
    let t := Task.mk i c cs
    let x : ℚ := (depth : ℚ) * (NODE_WIDTH + H_SPACING)
    let y : ℚ := startY + subtreeHeight t / 2 - NODE_HEIGHT / 2
    ⟨t, x, y, depth⟩ ::
      (if !c && !cs.isEmpty then layoutChildren cs (depth + 1) startY else [])

/-- The `for (const child of task.children)` loop of `layout`, carrying
the running `childStartY`. -/
def layoutChildren : List Task → ℕ → ℚ → List NodePosition
  | [], _, _ => []
  | c :: cs, depth, y =>
    layout c depth y ++ layoutChildren cs depth (y + subtreeHeight c + V_SPACING)

end

/-- The toplevel loop of `useMindmapLayout`: root trees are laid out in
order, the running `currentY` advancing by each tree's height plus
`V_SPACING * 2`. -/
def layoutForest : List Task → ℚ → List NodePosition
  | [], _ => []
  | t :: ts, y =>
    layout t 0 y ++ layoutForest ts (y + subtreeHeight t + V_SPACING * 2)

/-- Embeds `maxWidth = Math.max(maxWidth, x + NODE_WIDTH)` folded over the
positions in push order, starting from `0`. -/
def canvasWidth (ps : List NodePosition) : ℚ :=
  ps.foldl (fun m p => max m (p.x + NODE_WIDTH)) 0

/-- Embeds `maxHeight = Math.max(maxHeight, y + NODE_HEIGHT)` folded over the
positions in push order, starting from `0`. -/
def canvasHeight (ps : List NodePosition) : ℚ :=
  ps.foldl (fun m p => max m (p.y + NODE_HEIGHT)) 0

/-- The full result of `useMindmapLayout`. -/
def mindmapLayout (ts : List Task) : List NodePosition × ℚ × ℚ :=
  let ps := layoutForest ts 0
  (ps, canvasWidth ps, canvasHeight ps)

/-! Spec-side definitions.

The following definitions are written from the specification's words
(`spec.md` §4.2, §8 and the claims), to be compared with the embedded
source functions above.  They are the only definitions in this file not
taken from the source. -/

/-- Modelled from the spec: "each later sibling's band starts immediately
after the previous sibling's band plus `V`" — the list of band start
ordinates for a sibling list whose first band starts at `start`. -/
def bandStartsOf (start : ℚ) : List Task → List ℚ
  | [] => []
  | c :: cs => start :: bandStartsOf (start + subtreeHeight c + V_SPACING) cs

/-- Modelled from the spec: "root-level trees are separated by
`2*V_SPACING`" — band starts of the root-level trees. -/
def rootBandStarts (start : ℚ) : List Task → List ℚ
  | [] => []
  | t :: ts => start :: rootBandStarts (start + subtreeHeight t + 2 * V_SPACING) ts

mutual

/-- Modelled from the spec: a visible node is placed at
`x = depth * (NODE_WIDTH + H_SPACING)` and
`y = bandStart + subtreeHeight/2 - NODE_HEIGHT/2`; the children of an
expanded node occupy the bands `bandStartsOf bandStart children`, the
first of which starts at the parent's own band start. -/
def specLayout : Task → ℕ → ℚ → List NodePosition
  | .mk i c cs, depth, bandStart =>
    ⟨Task.mk i c cs, (depth : ℚ) * (NODE_WIDTH + H_SPACING),
        bandStart + subtreeHeight (Task.mk i c cs) / 2 - NODE_HEIGHT / 2, depth⟩ ::
      (if c then [] else specSiblings cs (depth + 1) (bandStartsOf bandStart cs))

/-- Sibling subtrees laid out at the given list of band starts. -/
def specSiblings : List Task → ℕ → List ℚ → List NodePosition
  | [], _, _ => []
  | c :: cs, depth, b :: bs => specLayout c depth b ++ specSiblings cs depth bs
  | _ :: _, _, [] => []

end

/-- Modelled from the spec: the whole forest, roots at depth 0 in bands
starting at 0 separated by `2*V_SPACING`. -/
def specLayoutForest (ts : List Task) : List NodePosition :=
  specSiblings ts 0 (rootBandStarts 0 ts)

mutual

/-- Modelled from the spec (C10): depth-first pre-order of the visible
nodes — the node itself, then (when expanded) the pre-orders of its
children in array order. -/
def preorderVisible : Task → List Task
  | .mk i c cs =>
    Task.mk i c cs :: (if c then [] else preorderVisibleList cs)

/-- Pre-orders of a list of sibling trees, concatenated in order. -/
def preorderVisibleList : List Task → List Task
  | [] => []
  | t :: ts => preorderVisible t ++ preorderVisibleList ts

end

/-- Relation `ExpandedAncestorsIn t n u`: within the tree rooted at `t`, the node
`u` is reachable through a chain of `n` ancestors each of which is
expanded (`collapsed = false`).  Since the children relation is a tree,
the chain of ancestors of an occurrence is unique, so `n` is "the count
of expanded ancestors" of the visible node `u`. -/
inductive ExpandedAncestorsIn : Task → ℕ → Task → Prop where
  | refl (t : Task) : ExpandedAncestorsIn t 0 t
  | step {t : Task} {c : Task} {n : ℕ} {u : Task} :
      t.collapsed = false → c ∈ t.children → ExpandedAncestorsIn c n u →
      ExpandedAncestorsIn t (n + 1) u

/-- Node `u` is visible in the forest `ts` with `n` expanded ancestors. -/
def ExpandedAncestors (ts : List Task) (n : ℕ) (u : Task) : Prop :=
  ∃ t ∈ ts, ExpandedAncestorsIn t n u

/-- The vertical extent of a laid-out sibling list: summed heights plus
the inter-sibling gaps. -/
def spanList (cs : List Task) : ℚ :=
  heightsSum cs + ((cs.length : ℚ) - 1) * V_SPACING

/-- Position `p` is emitted before `q` and, if they sit in the same depth column,
`q` starts at least `NODE_HEIGHT` below `p`. -/
def SameDepthBelow (p q : NodePosition) : Prop :=
  p.depth = q.depth → p.y + NODE_HEIGHT ≤ q.y

/-! Viewport controller.

`MindmapView` keeps `transform = { x, y, scale }` (translate and scale).
The wheel, pan and fit-to-view handlers below are embedded from the
source; screen coordinates relative to the container
(`clientX - rect.left`, `clientY - rect.top`) are taken as inputs. -/

/-- The `transform` state `{ x: translateX, y: translateY, scale }`. -/
structure Transform where
  x : ℚ
  y : ℚ
  scale : ℚ

/-- Embeds `handleWheel`: `scaleAmount = -deltaY * 0.001`,
`newScale = min(max(0.2, scale + scaleAmount), 2)`, and the translate is
recomputed about the cursor point `(mouseX, mouseY)`. -/
def handleWheel (t : Transform) (deltaY mouseX mouseY : ℚ) : Transform :=
  let scaleAmount := -deltaY * (0.001 : ℚ)
  let newScale := min (max (0.2 : ℚ) (t.scale + scaleAmount)) 2
  let newX := mouseX - (mouseX - t.x) * (newScale / t.scale)
  let newY := mouseY - (mouseY - t.y) * (newScale / t.scale)
  ⟨newX, newY, newScale⟩

/-- The panning branch of `handleMouseMove`: the translate becomes the
pointer position minus the drag start offset; the scale is spread
unchanged (`{ ...t, x: newX, y: newY }`). -/
def panMove (t : Transform) (panStartX panStartY clientX clientY : ℚ) : Transform :=
  ⟨clientX - panStartX, clientY - panStartY, t.scale⟩

/-- Embeds `handleFitToView`: on a degenerate canvas reset to
`{x: 50, y: 50, scale: 1}`; otherwise
`scale = min(viewW/canvasW, viewH/canvasH) * 0.9` and the content is
centered.  (The source also falls back to the default when the container
ref is absent; that DOM case is outside the embedding.) -/
def handleFitToView (canvasW canvasH viewW viewH : ℚ) : Transform :=
  if canvasW = 0 ∨ canvasH = 0 then ⟨50, 50, 1⟩
  else
    let scale := min (viewW / canvasW) (viewH / canvasH) * (0.9 : ℚ)
    let scaledWidth := canvasW * scale
    let scaledHeight := canvasH * scale
    ⟨(viewW - scaledWidth) / 2, (viewH - scaledHeight) / 2, scale⟩

/-! Connector builder. -/

/-- Geometry of one cubic path string
`M startX startY C c1x c1y, c2x c2y, endX endY`, with the ids the source
records on the connector. -/
structure Curve where
  startX : ℚ
  startY : ℚ
  c1x : ℚ
  c1y : ℚ
  c2x : ℚ
  c2y : ℚ
  endX : ℚ
  endY : ℚ
  sourceId : String
  targetId : String

/-- Embeds `new Map(nodePositions.map(p => [p.task.id, p])).get(id)`: with
duplicate ids the later entry overwrites the earlier one. -/
def lookupPos (ps : List NodePosition) (i : String) : Option NodePosition :=
  ps.reverse.find? (fun p => p.task.id == i)

/-- The custom-connector geometry for one source/target position pair
(the body of the inner `forEach` of the custom-connections memo):
a wide detour arc for backward edges (`sourcePos.depth > targetPos.depth`),
a standard S-curve otherwise. -/
def mkCustomCurve (sp tp : NodePosition) (targetId : String) (canvasH : ℚ) : Curve :=
  let startX := sp.x + NODE_WIDTH
  let startY := sp.y + NODE_HEIGHT / 2
  let endX := tp.x
  let endY := tp.y + NODE_HEIGHT / 2
  if sp.depth > tp.depth then
    let midPointY := (startY + endY) / 2
    let verticalGap : ℚ := 100
    let detourY := if midPointY < canvasH / 2 then -verticalGap else canvasH + verticalGap
    let controlPointXOffset := max 60 ((startX - endX) * (0.2 : ℚ))
    ⟨startX, startY, startX + controlPointXOffset, detourY, endX - controlPointXOffset,
      detourY, endX, endY, sp.task.id, targetId⟩
  else
    let curveFactor := (endX - startX) * (0.4 : ℚ)
    ⟨startX, startY, startX + curveFactor, startY, endX - curveFactor, endY, endX, endY,
      sp.task.id, targetId⟩

/-- The curves produced for one `(sourceId, targetId)` pair of the
overlay: one when both lookups succeed, none otherwise. -/
def pairCurves (ps : List NodePosition) (sourceId targetId : String) (canvasH : ℚ) :
    List Curve :=
  match lookupPos ps sourceId, lookupPos ps targetId with
  | some sp, some tp => [mkCustomCurve sp tp targetId canvasH]
  | _, _ => []

/-- The custom-connections part of the connector memo:
`Object.entries(connections)` is modelled as an association list in
entry order; a missing source position skips the whole entry, a missing
target position skips that target. -/
def customConnectors (ps : List NodePosition) (conns : List (String × List String))
    (canvasH : ℚ) : List Curve :=
  conns.flatMap (fun e =>
    match lookupPos ps e.1 with
    | none => []
    | some sp =>
        e.2.filterMap (fun targetId =>
          (lookupPos ps targetId).map (fun tp => mkCustomCurve sp tp targetId canvasH)))

/-! Connection-drawing interaction. -/

/-- The `drawingConnection` state. -/
structure DraftConnection where
  sourceId : String
  startX : ℚ
  startY : ℚ
  endX : ℚ
  endY : ℚ

/-- The draft-connection part of `handleMouseUp`.  The DOM hit-test
`document.elementFromPoint(...)?.closest('[data-task-id]')` is modelled
by the input `hit`: `none` when no node region lies under the release
point, `some id` for the topmost region's `data-task-id` value.  The
source guard is `if (targetId && targetId !== sourceId)`, where JS
truthiness also rejects the empty string.  Returns the emitted
`onAddConnection` requests and the new draft state. -/
def handleMouseUp (drawing : Option DraftConnection) (hit : Option String) :
    List (String × String) × Option DraftConnection :=
  match drawing with
  | none => ([], none)
  | some d =>
    match hit with
    | some targetId =>
      if targetId ≠ "" ∧ targetId ≠ d.sourceId then ([(d.sourceId, targetId)], none)
      else ([], none)
    | none => ([], none)

/-! Collapsing a node.

A node of the forest is addressed by a path: the index of its root tree
followed by child indices.  `onToggleCollapse` (an external collaborator)
flips the `collapsed` flag of one node and leaves everything else in the
tree untouched; collapsing is embedded as setting the flag to `true` at
a path. -/

mutual

/-- Set `collapsed := true` on the node at path `p`, leaving all other
node fields and the tree shape unchanged. -/
def setCollapsedAt : Task → List ℕ → Task
  | .mk i _ cs, [] => .mk i true cs
  | .mk i c cs, j :: p => .mk i c (setCollapsedChildren cs j p)

def setCollapsedChildren : List Task → ℕ → List ℕ → List Task
  | [], _, _ => []
  | t :: ts, 0, p => setCollapsedAt t p :: ts
  | t :: ts, j + 1, p => t :: setCollapsedChildren ts j p

end

/-- Collapse the node at the given path of the forest (the empty path
addresses no node and leaves the forest unchanged). -/
def collapseForest (ts : List Task) : List ℕ → List Task
  | [] => ts
  | j :: p => setCollapsedChildren ts j p

mutual

/-- The node at path `p` within a tree, if the path is in range. -/
def nodeAtTask : Task → List ℕ → Option Task
  | t, [] => some t
  | .mk _ _ cs, j :: p => nodeAtChildren cs j p

def nodeAtChildren : List Task → ℕ → List ℕ → Option Task
  | [], _, _ => none
  | t :: _, 0, p => nodeAtTask t p
  | _ :: ts, j + 1, p => nodeAtChildren ts j p

end

/-- The node at a path of the forest. -/
def nodeAtForest (ts : List Task) : List ℕ → Option Task
  | [] => none
  | j :: p => nodeAtChildren ts j p

mutual

/-- The path stays in range and every strict ancestor of the addressed
node is expanded — i.e. the addressed node is visible. -/
def visiblePathTask : Task → List ℕ → Bool
  | _, [] => true
  | .mk _ c cs, j :: p => !c && visiblePathChildren cs j p

def visiblePathChildren : List Task → ℕ → List ℕ → Bool
  | [], _, _ => false
  | t :: _, 0, p => visiblePathTask t p
  | _ :: ts, j + 1, p => visiblePathChildren ts j p

end

/-- Visibility of the node addressed by a path of the forest. -/
def visiblePathForest (ts : List Task) : List ℕ → Bool
  | [] => false
  | j :: p => visiblePathChildren ts j p

mutual

/-- The `(id, depth, x)` triple of every visible node in pre-order —
the projection of the position list that is invariant under vertical
shifts. -/
def visTriples : Task → ℕ → List (String × ℕ × ℚ)
  | .mk i c cs, d =>
    (i, d, (d : ℚ) * (NODE_WIDTH + H_SPACING)) ::
      (if !c && !cs.isEmpty then visTriplesList cs (d + 1) else [])

def visTriplesList : List Task → ℕ → List (String × ℕ × ℚ)
  | [], _ => []
  | t :: ts, d => visTriples t d ++ visTriplesList ts d

end

/-- The `(id, depth, x)` triples of the *visible strict descendants* of
a node placed at depth `d`. -/
def descTriples (t : Task) (d : ℕ) : List (String × ℕ × ℚ) :=
  if !t.collapsed && !t.children.isEmpty then visTriplesList t.children (d + 1) else []

mutual

/-- The positions of the earlier siblings (with their entire subtrees)
of the node addressed by the path, collected at every level along the
path, with the band starts the layout pass would assign them. -/
def earlierSibPos : Task → List ℕ → ℕ → ℚ → List NodePosition
  | _, [], _, _ => []
  | .mk _ _ cs, j :: p, d, y => earlierSibPosChildren cs j p (d + 1) y

def earlierSibPosChildren : List Task → ℕ → List ℕ → ℕ → ℚ → List NodePosition
  | [], _, _, _, _ => []
  | c :: _, 0, p, d, y => earlierSibPos c p d y
  | c :: cs, j + 1, p, d, y =>
    layout c d y ++ earlierSibPosChildren cs j p d (y + subtreeHeight c + V_SPACING)

end

/-- Earlier-sibling positions along a path of the forest (earlier root
trees count as earlier siblings of the addressed root). -/
def earlierSibPosForest : List Task → List ℕ → ℚ → List NodePosition
  | _, [], _ => []
  | [], _ :: _, _ => []
  | t :: _, 0 :: p, y => earlierSibPos t p 0 y
  | t :: ts, (j + 1) :: p, y =>
    layout t 0 y ++ earlierSibPosForest ts (j :: p) (y + subtreeHeight t + V_SPACING * 2)

/-- The forest of the C5 example: a root `A` with children `B` (two leaf
children `b1`, `b2`) and `C`. -/
def exampleForest : List Task :=
  [Task.mk "A" false
    [Task.mk "B" false [Task.mk "b1" false [], Task.mk "b2" false []],
      Task.mk "C" false []]]

/-! Helper lemmas. -/

theorem heightsSum_eq_map_sum : ∀ cs : List Task, heightsSum cs = (cs.map subtreeHeight).sum
  | [] => rfl
  | c :: cs => by
    simp [heightsSum, heightsSum_eq_map_sum cs]

mutual

theorem layout_eq_spec : ∀ (t : Task) (d : ℕ) (y : ℚ), layout t d y = specLayout t d y
  | .mk i c cs, d, y => by
    cases c with
    | true => simp [layout, specLayout]
    | false =>
      cases cs with
      | nil => simp [layout, specLayout, specSiblings, bandStartsOf]
      | cons c0 cs0 =>
        simpa [layout, specLayout] using
          layoutChildren_eq_spec (c0 :: cs0) (d + 1) y

theorem layoutChildren_eq_spec : ∀ (cs : List Task) (d : ℕ) (y : ℚ),
    layoutChildren cs d y = specSiblings cs d (bandStartsOf y cs)
  | [], _, _ => rfl
  | c :: cs, d, y => by
    simp only [layoutChildren, bandStartsOf, specSiblings]
    rw [layout_eq_spec c d y, layoutChildren_eq_spec cs d (y + subtreeHeight c + V_SPACING)]

end

theorem layoutForest_eq_spec : ∀ (ts : List Task) (y : ℚ),
    layoutForest ts y = specSiblings ts 0 (rootBandStarts y ts)
  | [], _ => rfl
  | t :: ts, y => by
    simp only [layoutForest, rootBandStarts, specSiblings]
    rw [layout_eq_spec t 0 y, mul_comm (2 : ℚ) V_SPACING,
      layoutForest_eq_spec ts (y + subtreeHeight t + V_SPACING * 2)]

theorem spanList_cons (c : Task) (cs : List Task) :
    spanList (c :: cs) = subtreeHeight c + V_SPACING + spanList cs := by
  simp only [spanList, heightsSum, List.length_cons]
  push_cast
  ring

theorem subtreeHeight_expanded (i : String) (c0 : Task) (cs0 : List Task) :
    subtreeHeight (.mk i false (c0 :: cs0)) = spanList (c0 :: cs0) := by
  simp [subtreeHeight, spanList]

mutual

theorem subtreeHeight_ge : ∀ t : Task, NODE_HEIGHT ≤ subtreeHeight t
  | .mk i c cs => by
    cases c with
    | true => simp [subtreeHeight]
    | false =>
      cases cs with
      | nil => simp [subtreeHeight]
      | cons c0 cs0 =>
        have h0 := subtreeHeight_ge c0
        have h1 := heightsSum_nonneg cs0
        have h2 : (0 : ℚ) ≤ (cs0.length : ℚ) := by positivity
        simp only [subtreeHeight, heightsSum, Bool.false_or, List.isEmpty_cons,
          List.length_cons, if_neg Bool.false_ne_true]
        push_cast
        simp only [NODE_HEIGHT, V_SPACING] at *
        nlinarith

theorem heightsSum_nonneg : ∀ cs : List Task, 0 ≤ heightsSum cs
  | [] => le_refl 0
  | c :: cs => by
    have h0 := subtreeHeight_ge c
    have h1 := heightsSum_nonneg cs
    simp only [heightsSum, NODE_HEIGHT] at *
    linarith

end

theorem spanList_pos (c : Task) (cs : List Task) : NODE_HEIGHT ≤ spanList (c :: cs) := by
  have h0 := subtreeHeight_ge c
  have h1 := heightsSum_nonneg cs
  have h2 : (0 : ℚ) ≤ (cs.length : ℚ) := by positivity
  simp only [spanList, heightsSum, List.length_cons, NODE_HEIGHT, V_SPACING] at *
  push_cast
  nlinarith

theorem spanList_V_nonneg : ∀ cs : List Task, 0 ≤ V_SPACING + spanList cs
  | [] => by norm_num [spanList, heightsSum, V_SPACING]
  | c :: cs => by
    have := spanList_pos c cs
    simp only [NODE_HEIGHT, V_SPACING] at *
    linarith

mutual

/-- Every position produced by `layout t d y` lies in the vertical band
`[y, y + subtreeHeight t]`. -/
theorem layout_band : ∀ (t : Task) (d : ℕ) (y : ℚ), ∀ p ∈ layout t d y,
    y ≤ p.y ∧ p.y + NODE_HEIGHT ≤ y + subtreeHeight t
  | .mk i c cs, d, y, p, hp => by
    cases c with
    | true =>
      have hp' : p = ⟨Task.mk i true cs, (d : ℚ) * (NODE_WIDTH + H_SPACING),
          y + subtreeHeight (Task.mk i true cs) / 2 - NODE_HEIGHT / 2, d⟩ := by
        simpa [layout] using hp
      subst hp'
      simp [subtreeHeight]
    | false =>
      cases cs with
      | nil =>
        have hp' : p = ⟨Task.mk i false [], (d : ℚ) * (NODE_WIDTH + H_SPACING),
            y + subtreeHeight (Task.mk i false []) / 2 - NODE_HEIGHT / 2, d⟩ := by
          simpa [layout] using hp
        subst hp'
        simp [subtreeHeight]
      | cons c0 cs0 =>
        have hh := subtreeHeight_expanded i c0 cs0
        have hge := spanList_pos c0 cs0
        rcases (by simpa [layout] using hp :
            p = ⟨Task.mk i false (c0 :: cs0), (d : ℚ) * (NODE_WIDTH + H_SPACING),
              y + subtreeHeight (Task.mk i false (c0 :: cs0)) / 2 - NODE_HEIGHT / 2, d⟩ ∨
            p ∈ layoutChildren (c0 :: cs0) (d + 1) y) with h | h
        · subst h
          simp only [hh]
          constructor <;> linarith
        · have := layoutChildren_band (c0 :: cs0) (d + 1) y p h
          rw [hh]
          exact this

/-- Every position produced by `layoutChildren cs d y` lies in the band
`[y, y + spanList cs]`. -/
theorem layoutChildren_band : ∀ (cs : List Task) (d : ℕ) (y : ℚ),
    ∀ p ∈ layoutChildren cs d y, y ≤ p.y ∧ p.y + NODE_HEIGHT ≤ y + spanList cs
  | [], _, _, p, hp => absurd hp (by simp [layoutChildren])
  | c :: cs, d, y, p, hp => by
    have hcV := spanList_V_nonneg cs
    have hc := subtreeHeight_ge c
    have hspan := spanList_cons c cs
    rcases (by simpa [layoutChildren] using hp :
        p ∈ layout c d y ∨ p ∈ layoutChildren cs d (y + subtreeHeight c + V_SPACING)) with
        h | h
    · have hb := layout_band c d y p h
      refine ⟨hb.1, ?_⟩
      have := hb.2
      rw [hspan]
      linarith
    · have hb := layoutChildren_band cs d (y + subtreeHeight c + V_SPACING) p h
      have h60 : (0 : ℚ) < V_SPACING := by norm_num [V_SPACING]
      have h80 : (0 : ℚ) < NODE_HEIGHT := by norm_num [NODE_HEIGHT]
      refine ⟨by linarith [hb.1], ?_⟩
      rw [hspan]
      linarith [hb.2]

end

/-- Every position produced by `layoutForest ts y` lies at or below `y`. -/
theorem layoutForest_lb : ∀ (ts : List Task) (y : ℚ), ∀ p ∈ layoutForest ts y, y ≤ p.y
  | [], _, p, hp => absurd hp (by simp [layoutForest])
  | t :: ts, y, p, hp => by
    have hc := subtreeHeight_ge t
    have h60 : (0 : ℚ) < V_SPACING := by norm_num [V_SPACING]
    have h80 : (0 : ℚ) < NODE_HEIGHT := by norm_num [NODE_HEIGHT]
    rcases (by simpa [layoutForest] using hp :
        p ∈ layout t 0 y ∨ p ∈ layoutForest ts (y + subtreeHeight t + V_SPACING * 2)) with
        h | h
    · exact (layout_band t 0 y p h).1
    · have := layoutForest_lb ts (y + subtreeHeight t + V_SPACING * 2) p h
      linarith

mutual

/-- Every position's `x` is its own recorded depth times the column
width, and depths only grow along the recursion. -/
theorem layout_x : ∀ (t : Task) (d : ℕ) (y : ℚ), ∀ p ∈ layout t d y,
    p.x = (p.depth : ℚ) * (NODE_WIDTH + H_SPACING) ∧ d ≤ p.depth
  | .mk i c cs, d, y, p, hp => by
    rcases (by simpa [layout] using hp :
        p = ⟨Task.mk i c cs, (d : ℚ) * (NODE_WIDTH + H_SPACING),
          y + subtreeHeight (Task.mk i c cs) / 2 - NODE_HEIGHT / 2, d⟩ ∨
        ((!c && !cs.isEmpty) = true ∧ p ∈ layoutChildren cs (d + 1) y)) with h | h
    · subst h
      exact ⟨rfl, le_refl d⟩
    · have := layoutChildren_x cs (d + 1) y p h.2
      exact ⟨this.1, le_trans (Nat.le_succ d) this.2⟩

theorem layoutChildren_x : ∀ (cs : List Task) (d : ℕ) (y : ℚ), ∀ p ∈ layoutChildren cs d y,
    p.x = (p.depth : ℚ) * (NODE_WIDTH + H_SPACING) ∧ d ≤ p.depth
  | [], _, _, p, hp => absurd hp (by simp [layoutChildren])
  | c :: cs, d, y, p, hp => by
    rcases (by simpa [layoutChildren] using hp :
        p ∈ layout c d y ∨ p ∈ layoutChildren cs d (y + subtreeHeight c + V_SPACING)) with
        h | h
    · exact layout_x c d y p h
    · exact layoutChildren_x cs d (y + subtreeHeight c + V_SPACING) p h

end

theorem layoutForest_x : ∀ (ts : List Task) (y : ℚ), ∀ p ∈ layoutForest ts y,
    p.x = (p.depth : ℚ) * (NODE_WIDTH + H_SPACING)
  | [], _, p, hp => absurd hp (by simp [layoutForest])
  | t :: ts, y, p, hp => by
    rcases (by simpa [layoutForest] using hp :
        p ∈ layout t 0 y ∨ p ∈ layoutForest ts (y + subtreeHeight t + V_SPACING * 2)) with
        h | h
    · exact (layout_x t 0 y p h).1
    · exact layoutForest_x ts (y + subtreeHeight t + V_SPACING * 2) p h

mutual

theorem layout_pairwise : ∀ (t : Task) (d : ℕ) (y : ℚ),
    (layout t d y).Pairwise SameDepthBelow
  | .mk i c cs, d, y => by
    rw [show layout (.mk i c cs) d y =
        ⟨Task.mk i c cs, (d : ℚ) * (NODE_WIDTH + H_SPACING),
          y + subtreeHeight (Task.mk i c cs) / 2 - NODE_HEIGHT / 2, d⟩ ::
        (if !c && !cs.isEmpty then layoutChildren cs (d + 1) y else []) from by
      simp [layout]]
    refine List.Pairwise.cons ?_ ?_
    · intro q hq
      cases hbool : (!c && !cs.isEmpty) with
      | false =>
        rw [hbool] at hq
        simp at hq
      | true =>
        rw [hbool] at hq
        simp only [if_pos rfl] at hq
        intro hdep
        exact absurd hdep (by
          have := (layoutChildren_x cs (d + 1) y q hq).2
          simp only [NodePosition.depth] at *
          omega)
    · cases hbool : (!c && !cs.isEmpty) with
      | false => simp
      | true =>
        simp only [if_pos rfl]
        exact layoutChildren_pairwise cs (d + 1) y

theorem layoutChildren_pairwise : ∀ (cs : List Task) (d : ℕ) (y : ℚ),
    (layoutChildren cs d y).Pairwise SameDepthBelow
  | [], _, _ => by simp [layoutChildren]
  | c :: cs, d, y => by
    rw [show layoutChildren (c :: cs) d y =
        layout c d y ++ layoutChildren cs d (y + subtreeHeight c + V_SPACING) from by
      simp [layoutChildren]]
    rw [List.pairwise_append]
    refine ⟨layout_pairwise c d y,
      layoutChildren_pairwise cs d (y + subtreeHeight c + V_SPACING), ?_⟩
    intro p hp q hq _
    have h1 := (layout_band c d y p hp).2
    have h2 := (layoutChildren_band cs d (y + subtreeHeight c + V_SPACING) q hq).1
    have h60 : (0 : ℚ) < V_SPACING := by norm_num [V_SPACING]
    linarith

end

theorem layoutForest_pairwise : ∀ (ts : List Task) (y : ℚ),
    (layoutForest ts y).Pairwise SameDepthBelow
  | [], _ => by simp [layoutForest]
  | t :: ts, y => by
    rw [show layoutForest (t :: ts) y =
        layout t 0 y ++ layoutForest ts (y + subtreeHeight t + V_SPACING * 2) from by
      simp [layoutForest]]
    rw [List.pairwise_append]
    refine ⟨layout_pairwise t 0 y,
      layoutForest_pairwise ts (y + subtreeHeight t + V_SPACING * 2), ?_⟩
    intro p hp q hq _
    have h1 := (layout_band t 0 y p hp).2
    have h2 := layoutForest_lb ts (y + subtreeHeight t + V_SPACING * 2) q hq
    have h60 : (0 : ℚ) < V_SPACING := by norm_num [V_SPACING]
    linarith

theorem foldl_max_init_le : ∀ (f : NodePosition → ℚ) (ps : List NodePosition) (a : ℚ),
    a ≤ ps.foldl (fun m p => max m (f p)) a
  | _, [], a => le_refl a
  | f, p :: ps, a => le_trans (le_max_left a (f p)) (foldl_max_init_le f ps _)

theorem le_foldl_max : ∀ (f : NodePosition → ℚ) (ps : List NodePosition) (a : ℚ),
    ∀ p ∈ ps, f p ≤ ps.foldl (fun m q => max m (f q)) a
  | f, p0 :: ps, a, p, hp => by
    rcases List.mem_cons.mp hp with h | h
    · subst h
      exact le_trans (le_max_right a (f p)) (foldl_max_init_le f ps _)
    · exact le_foldl_max f ps (max a (f p0)) p h

theorem foldl_max_attained : ∀ (f : NodePosition → ℚ) (ps : List NodePosition) (a : ℚ),
    ps.foldl (fun m q => max m (f q)) a = a ∨
      ∃ p ∈ ps, ps.foldl (fun m q => max m (f q)) a = f p
  | _, [], a => Or.inl rfl
  | f, p0 :: ps, a => by
    rcases foldl_max_attained f ps (max a (f p0)) with h | ⟨p, hp, h⟩
    · rcases max_choice a (f p0) with hm | hm
      · exact Or.inl (by rw [List.foldl_cons, h, hm])
      · exact Or.inr ⟨p0, List.mem_cons_self p0 ps, by rw [List.foldl_cons, h, hm]⟩
    · exact Or.inr ⟨p, List.mem_cons_of_mem p0 hp, by rw [List.foldl_cons, h]⟩

mutual

/-- Every position emitted by `layout t d y` is a node visible in the
tree `t`, recorded at depth `d` plus its count of expanded ancestors
within `t`. -/
theorem layout_ancestors : ∀ (t : Task) (d : ℕ) (y : ℚ), ∀ p ∈ layout t d y,
    ∃ n, p.depth = d + n ∧ ExpandedAncestorsIn t n p.task
  | .mk i c cs, d, y, p, hp => by
    rcases (by simpa [layout] using hp :
        p = ⟨Task.mk i c cs, (d : ℚ) * (NODE_WIDTH + H_SPACING),
          y + subtreeHeight (Task.mk i c cs) / 2 - NODE_HEIGHT / 2, d⟩ ∨
        ((!c && !cs.isEmpty) = true ∧ p ∈ layoutChildren cs (d + 1) y)) with h | h
    · subst h
      exact ⟨0, rfl, ExpandedAncestorsIn.refl _⟩
    · obtain ⟨hb, hmem⟩ := h
      have hc : c = false := by
        cases c with
        | true => simp at hb
        | false => rfl
      subst hc
      obtain ⟨c0, hc0, n, hdep, hEA⟩ := layoutChildren_ancestors cs (d + 1) y p hmem
      exact ⟨n + 1, by omega,
        ExpandedAncestorsIn.step (t := Task.mk i false cs) rfl hc0 hEA⟩

theorem layoutChildren_ancestors : ∀ (cs : List Task) (d : ℕ) (y : ℚ),
    ∀ p ∈ layoutChildren cs d y,
    ∃ c ∈ cs, ∃ n, p.depth = d + n ∧ ExpandedAncestorsIn c n p.task
  | [], _, _, p, hp => absurd hp (by simp [layoutChildren])
  | c :: cs, d, y, p, hp => by
    rcases (by simpa [layoutChildren] using hp :
        p ∈ layout c d y ∨ p ∈ layoutChildren cs d (y + subtreeHeight c + V_SPACING)) with
        h | h
    · obtain ⟨n, hdep, hEA⟩ := layout_ancestors c d y p h
      exact ⟨c, List.mem_cons_self c cs, n, hdep, hEA⟩
    · obtain ⟨c0, hc0, n, hdep, hEA⟩ :=
        layoutChildren_ancestors cs d (y + subtreeHeight c + V_SPACING) p h
      exact ⟨c0, List.mem_cons_of_mem c hc0, n, hdep, hEA⟩

end

theorem layoutForest_ancestors : ∀ (ts : List Task) (y : ℚ), ∀ p ∈ layoutForest ts y,
    ExpandedAncestors ts p.depth p.task
  | [], _, p, hp => absurd hp (by simp [layoutForest])
  | t :: ts, y, p, hp => by
    rcases (by simpa [layoutForest] using hp :
        p ∈ layout t 0 y ∨ p ∈ layoutForest ts (y + subtreeHeight t + V_SPACING * 2)) with
        h | h
    · obtain ⟨n, hdep, hEA⟩ := layout_ancestors t 0 y p h
      exact ⟨t, List.mem_cons_self t ts, by rwa [hdep, Nat.zero_add]⟩
    · obtain ⟨t0, ht0, hEA⟩ :=
        layoutForest_ancestors ts (y + subtreeHeight t + V_SPACING * 2) p h
      exact ⟨t0, List.mem_cons_of_mem t ht0, hEA⟩

mutual

/-- The tasks of the emitted positions, in emission order, are exactly
the depth-first pre-order of the visible nodes. -/
theorem layout_map_task : ∀ (t : Task) (d : ℕ) (y : ℚ),
    (layout t d y).map NodePosition.task = preorderVisible t
  | .mk i c cs, d, y => by
    cases c with
    | true => simp [layout, preorderVisible]
    | false =>
      cases cs with
      | nil => simp [layout, preorderVisible, preorderVisibleList]
      | cons c0 cs0 =>
        simpa [layout, preorderVisible] using
          layoutChildren_map_task (c0 :: cs0) (d + 1) y

theorem layoutChildren_map_task : ∀ (cs : List Task) (d : ℕ) (y : ℚ),
    (layoutChildren cs d y).map NodePosition.task = preorderVisibleList cs
  | [], _, _ => rfl
  | c :: cs, d, y => by
    simp only [layoutChildren, preorderVisibleList, List.map_append]
    rw [layout_map_task c d y,
      layoutChildren_map_task cs d (y + subtreeHeight c + V_SPACING)]

end

theorem layoutForest_map_task : ∀ (ts : List Task) (y : ℚ),
    (layoutForest ts y).map NodePosition.task = preorderVisibleList ts
  | [], _ => rfl
  | t :: ts, y => by
    simp only [layoutForest, preorderVisibleList, List.map_append]
    rw [layout_map_task t 0 y,
      layoutForest_map_task ts (y + subtreeHeight t + V_SPACING * 2)]

theorem layoutForest_cons_ne_nil (i : String) (c : Bool) (cs : List Task)
    (ts : List Task) (y : ℚ) : layoutForest (Task.mk i c cs :: ts) y ≠ [] := by
  simp [layoutForest, layout]

theorem layoutForest_x_nonneg (ts : List Task) (p : NodePosition)
    (hp : p ∈ layoutForest ts 0) : 0 ≤ p.x := by
  rw [layoutForest_x ts 0 p hp]
  have h1 : (0 : ℚ) ≤ (p.depth : ℚ) := by positivity
  have h2 : (0 : ℚ) ≤ NODE_WIDTH + H_SPACING := by norm_num [NODE_WIDTH, H_SPACING]
  exact mul_nonneg h1 h2

/-! Claim theorems. -/

/-- C1. For every task forest and every visible node, the Position
Assignment Pass assigns `x = depth * (NODE_WIDTH + H_SPACING)` with the
depth equal to the count of expanded ancestors, and
`y = bandStart + subtreeHeight/2 - NODE_HEIGHT/2` where a parent's first
child's band starts at the parent's band start, each later sibling's
band starts immediately after the previous sibling's band plus
`V_SPACING`, and root-level trees are separated by `2*V_SPACING`
(conjunct 1: the source layout equals the band-rule spec layout;
conjunct 2: each emitted depth is a count of expanded ancestors); and
the returned canvas bounds equal the maximum over all nodes of
`x + NODE_WIDTH` resp. `y + NODE_HEIGHT` (conjuncts 3 and 4: the bounds
are an upper bound on every node and are attained by some node whenever
the forest is non-empty). -/
theorem C1_position_assignment :
    (∀ ts : List Task, layoutForest ts 0 = specLayoutForest ts) ∧
    (∀ ts : List Task, ∀ p ∈ layoutForest ts 0, ExpandedAncestors ts p.depth p.task) ∧
    (∀ ts : List Task, ∀ p ∈ layoutForest ts 0,
        p.x + NODE_WIDTH ≤ canvasWidth (layoutForest ts 0) ∧
        p.y + NODE_HEIGHT ≤ canvasHeight (layoutForest ts 0)) ∧
    (∀ ts : List Task, 0 < ts.length →
        (∃ p ∈ layoutForest ts 0, canvasWidth (layoutForest ts 0) = p.x + NODE_WIDTH) ∧
        (∃ p ∈ layoutForest ts 0, canvasHeight (layoutForest ts 0) = p.y + NODE_HEIGHT)) := by
  refine ⟨fun ts => layoutForest_eq_spec ts 0, fun ts => layoutForest_ancestors ts 0, ?_, ?_⟩
  · intro ts p hp
    exact ⟨le_foldl_max (fun q => q.x + NODE_WIDTH) (layoutForest ts 0) 0 p hp,
      le_foldl_max (fun q => q.y + NODE_HEIGHT) (layoutForest ts 0) 0 p hp⟩
  · intro ts hts
    obtain ⟨⟨i, c, cs⟩, ts', rfl⟩ : ∃ t ts', ts = t :: ts' := by
      cases ts with
      | nil => simp at hts
      | cons t ts' => exact ⟨t, ts', rfl⟩
    obtain ⟨p0, hp0⟩ :=
      List.exists_mem_of_ne_nil _ (layoutForest_cons_ne_nil i c cs ts' 0)
    constructor
    · rcases foldl_max_attained (fun q => q.x + NODE_WIDTH) (layoutForest (Task.mk i c cs :: ts') 0) 0 with
          h | ⟨p, hp, h⟩
      · exfalso
        have hle := le_foldl_max (fun q => q.x + NODE_WIDTH) (layoutForest (Task.mk i c cs :: ts') 0) 0 p0 hp0
        rw [h] at hle
        have := layoutForest_x_nonneg _ p0 hp0
        simp only [NODE_WIDTH] at *
        linarith
      · exact ⟨p, hp, h⟩
    · rcases foldl_max_attained (fun q => q.y + NODE_HEIGHT) (layoutForest (Task.mk i c cs :: ts') 0) 0 with
          h | ⟨p, hp, h⟩
      · exfalso
        have hle := le_foldl_max (fun q => q.y + NODE_HEIGHT) (layoutForest (Task.mk i c cs :: ts') 0) 0 p0 hp0
        rw [h] at hle
        have := layoutForest_lb _ 0 p0 hp0
        simp only [NODE_HEIGHT] at *
        linarith
      · exact ⟨p, hp, h⟩

/-- Witness for C1 at the one-node forest `[r]`: its single position is
`(0, 0)` at depth 0, the bound hypotheses hold and the bounds are
attained. -/
theorem C1_position_assignment_witness :
    ((⟨Task.mk "r" false [], 0, 0, 0⟩ : NodePosition) ∈
        layoutForest [Task.mk "r" false []] 0) ∧
    ExpandedAncestors [Task.mk "r" false []]
      (⟨Task.mk "r" false [], 0, 0, 0⟩ : NodePosition).depth
      (⟨Task.mk "r" false [], 0, 0, 0⟩ : NodePosition).task ∧
    0 < ([Task.mk "r" false []] : List Task).length ∧
    (∃ p ∈ layoutForest [Task.mk "r" false []] 0,
        canvasWidth (layoutForest [Task.mk "r" false []] 0) = p.x + NODE_WIDTH) := by
  have hmem : (⟨Task.mk "r" false [], 0, 0, 0⟩ : NodePosition) ∈
      layoutForest [Task.mk "r" false []] 0 := by
    norm_num [layoutForest, layout, subtreeHeight, NODE_HEIGHT, NODE_WIDTH, H_SPACING]
  exact ⟨hmem, C1_position_assignment.2.1 _ _ hmem, by decide,
    (C1_position_assignment.2.2.2 [Task.mk "r" false []] (by decide)).1⟩

/-- C2. `calculateSubtreeHeight` gives a collapsed node or a leaf the
height `NODE_HEIGHT` exactly, and an expanded node with `k` children of
heights `h1..hk` the height `(h1 + ... + hk) + (k-1) * V_SPACING`
exactly.  (The function is a pure total function of the tree, so this
holds for every node, in particular every node reachable without
crossing a collapsed boundary.) -/
theorem C2_subtree_metrics :
    ∀ t : Task,
      ((t.collapsed = true ∨ t.children = []) → subtreeHeight t = NODE_HEIGHT) ∧
      (t.collapsed = false → t.children ≠ [] →
        subtreeHeight t = (t.children.map subtreeHeight).sum +
          ((t.children.length : ℚ) - 1) * V_SPACING) := by
  rintro ⟨i, c, cs⟩
  constructor
  · rintro (hc | hcs)
    · simp only [Task.collapsed] at hc
      subst hc
      simp [subtreeHeight]
    · simp only [Task.children] at hcs
      subst hcs
      simp [subtreeHeight]
  · intro hc hcs
    simp only [Task.collapsed] at hc
    simp only [Task.children] at hcs
    subst hc
    cases cs with
    | nil => exact absurd rfl hcs
    | cons c0 cs0 =>
      simp [subtreeHeight, Task.children, heightsSum_eq_map_sum]

/-- Witness for C2: a leaf gets height `NODE_HEIGHT`; an expanded node
with two leaf children gets the additive height. -/
theorem C2_subtree_metrics_witness :
    subtreeHeight (Task.mk "leaf" true []) = NODE_HEIGHT ∧
    subtreeHeight (Task.mk "p" false [Task.mk "a" false [], Task.mk "b" false []]) =
      (((Task.mk "p" false [Task.mk "a" false [], Task.mk "b" false []]).children.map
          subtreeHeight).sum +
        (((Task.mk "p" false [Task.mk "a" false [], Task.mk "b" false []]).children.length : ℚ)
            - 1) * V_SPACING) :=
  ⟨(C2_subtree_metrics (Task.mk "leaf" true [])).1 (Or.inl rfl),
    (C2_subtree_metrics (Task.mk "p" false [Task.mk "a" false [], Task.mk "b" false []])).2
      rfl (by simp [Task.children])⟩

/-- C3. For every task forest (any setting of the collapsed flags),
any two distinct emitted positions that lie at the same depth have
non-overlapping vertical bands of height `NODE_HEIGHT`: one of the
half-open intervals `[y, y + NODE_HEIGHT)` ends before the other begins
(`List.Pairwise` relates every pair of distinct entries of the position
list). -/
theorem C3_no_vertical_overlap :
    ∀ ts : List Task,
      (layoutForest ts 0).Pairwise (fun p q => p.depth = q.depth →
        p.y + NODE_HEIGHT ≤ q.y ∨ q.y + NODE_HEIGHT ≤ p.y) :=
  fun ts => (layoutForest_pairwise ts 0).imp (fun h hdep => Or.inl (h hdep))

/-- Witness for C3 at a two-leaf tree. -/
theorem C3_no_vertical_overlap_witness :
    (layoutForest [Task.mk "a" false [Task.mk "b" false [], Task.mk "c" false []]] 0).Pairwise
      (fun p q => p.depth = q.depth →
        p.y + NODE_HEIGHT ≤ q.y ∨ q.y + NODE_HEIGHT ≤ p.y) :=
  C3_no_vertical_overlap [Task.mk "a" false [Task.mk "b" false [], Task.mk "c" false []]]

/-- C10. The `NodePosition` list is emitted in depth-first pre-order:
its sequence of tasks equals the canonical pre-order traversal of the
visible nodes (each parent immediately before its descendants, sibling
subtrees in children-array order, root trees in input order; as the
traversal of a tree, it lists each visible node occurrence exactly
once), for every starting ordinate. -/
theorem C10_preorder_emission :
    ∀ (ts : List Task) (startY : ℚ),
      (layoutForest ts startY).map NodePosition.task = preorderVisibleList ts :=
  layoutForest_map_task

/-- C4. After `handleWheel`, the world coordinate mapped to the
cursor point is unchanged:
`(cx - newTranslate)/newScale = (cx - translate)/scale` componentwise,
for every starting transform with positive scale, every cursor point and
every wheel delta (including deltas clamped at 0.2 or 2.0). -/
theorem C4_zoom_invariance :
    ∀ (t : Transform) (deltaY cx cy : ℚ), 0 < t.scale →
      (cx - (handleWheel t deltaY cx cy).x) / (handleWheel t deltaY cx cy).scale =
        (cx - t.x) / t.scale ∧
      (cy - (handleWheel t deltaY cx cy).y) / (handleWheel t deltaY cx cy).scale =
        (cy - t.y) / t.scale := by
  intro t deltaY cx cy hscale
  have hnew : (0 : ℚ) < min (max (0.2 : ℚ) (t.scale + -deltaY * (0.001 : ℚ))) 2 := by
    have h1 : (0.2 : ℚ) ≤ max (0.2 : ℚ) (t.scale + -deltaY * (0.001 : ℚ)) :=
      le_max_left _ _
    have h2 : (0.2 : ℚ) ≤ min (max (0.2 : ℚ) (t.scale + -deltaY * (0.001 : ℚ))) 2 :=
      le_min h1 (by norm_num)
    calc (0 : ℚ) < 0.2 := by norm_num
    _ ≤ _ := h2
  simp only [handleWheel]
  constructor <;>
  · field_simp
    ring

/-- Witness for C4 at `t = ⟨10, 20, 1⟩`, a delta that hits the upper
clamp, and cursor `(100, 200)`. -/
theorem C4_zoom_invariance_witness :
    (0 : ℚ) < (⟨10, 20, 1⟩ : Transform).scale ∧
    ((100 : ℚ) - (handleWheel ⟨10, 20, 1⟩ (-5000) 100 200).x) /
        (handleWheel ⟨10, 20, 1⟩ (-5000) 100 200).scale =
      ((100 : ℚ) - (⟨10, 20, 1⟩ : Transform).x) / (⟨10, 20, 1⟩ : Transform).scale :=
  ⟨by norm_num, (C4_zoom_invariance ⟨10, 20, 1⟩ (-5000) 100 200 (by norm_num)).1⟩

/-- C6, counterexample. The claim says FitToView's resulting scale
lies within `[0.2, 2.0]` for every canvas-bounds / viewport-size
combination.  It does not: `handleFitToView` never clamps, and for the
canvas bounds of a single node (`256 × 80`) in a `1000 × 1000` viewport
it returns `scale = min(1000/256, 1000/80) * 0.9 = 225/64 ≈ 3.52 > 2`. -/
theorem C6_scale_bounds_counterexample :
    ¬ ((handleFitToView 256 80 1000 1000).scale ≤ 2) := by
  norm_num [handleFitToView, min_def]

/-- C6, amended. The scale stays within `[0.2, 2.0]` after
Zoom-at-cursor (which clamps into that interval) and after Pan (which
leaves the scale unchanged); FitToView resets the scale to `1` on a
degenerate canvas and otherwise sets it to the unclamped value
`min(viewW/canvasW, viewH/canvasH) * 0.9`, which can fall outside
`[0.2, 2.0]`. -/
theorem C6_scale_bounds_amended :
    (∀ (t : Transform) (d cx cy : ℚ),
        (0.2 : ℚ) ≤ (handleWheel t d cx cy).scale ∧ (handleWheel t d cx cy).scale ≤ 2) ∧
    (∀ (t : Transform) (px py cx cy : ℚ), (panMove t px py cx cy).scale = t.scale) ∧
    (∀ cw ch vw vh : ℚ, (cw = 0 ∨ ch = 0) → (handleFitToView cw ch vw vh).scale = 1) ∧
    (∀ cw ch vw vh : ℚ, cw ≠ 0 → ch ≠ 0 →
        (handleFitToView cw ch vw vh).scale = min (vw / cw) (vh / ch) * (0.9 : ℚ)) := by
  refine ⟨?_, fun t px py cx cy => rfl, ?_, ?_⟩
  · intro t d cx cy
    constructor
    · exact le_min (le_max_left _ _) (by norm_num)
    · exact min_le_right _ _
  · intro cw ch vw vh h
    simp [handleFitToView, if_pos h]
  · intro cw ch vw vh hcw hch
    simp [handleFitToView, hcw, hch]

/-- Witness for the amended C6: the degenerate-canvas branch at
`(0, 5, 1000, 1000)` and the non-degenerate branch at
`(1000, 1000, 900, 900)`. -/
theorem C6_scale_bounds_amended_witness :
    ((0 : ℚ) = 0 ∨ (5 : ℚ) = 0) ∧
    (handleFitToView 0 5 1000 1000).scale = 1 ∧
    (1000 : ℚ) ≠ 0 ∧
    (handleFitToView 1000 1000 900 900).scale =
      min ((900 : ℚ) / 1000) ((900 : ℚ) / 1000) * (0.9 : ℚ) :=
  ⟨Or.inl rfl, C6_scale_bounds_amended.2.2.1 0 5 1000 1000 (Or.inl rfl), by norm_num,
    C6_scale_bounds_amended.2.2.2 1000 1000 900 900 (by norm_num) (by norm_num)⟩

/-- C7. For every custom connection whose source depth strictly
exceeds its target depth, the curve is a detour arc: both control points
sit at vertical offset `-100` when the edge's vertical midpoint
`(startY + endY)/2` is strictly less than `canvasHeight/2` and at
`canvasHeight + 100` otherwise; a midpoint exactly at `canvasHeight/2`
routes below; the control-point horizontal offset is
`max(60, 0.2 * (startX - endX))`. -/
theorem C7_backward_detour :
    ∀ (sp tp : NodePosition) (targetId : String) (canvasH : ℚ), sp.depth > tp.depth →
      ((mkCustomCurve sp tp targetId canvasH).c1y =
          (if ((sp.y + NODE_HEIGHT / 2) + (tp.y + NODE_HEIGHT / 2)) / 2 < canvasH / 2
            then -100 else canvasH + 100) ∧
        (mkCustomCurve sp tp targetId canvasH).c2y =
          (mkCustomCurve sp tp targetId canvasH).c1y) ∧
      (((sp.y + NODE_HEIGHT / 2) + (tp.y + NODE_HEIGHT / 2)) / 2 = canvasH / 2 →
        (mkCustomCurve sp tp targetId canvasH).c1y = canvasH + 100) ∧
      ((mkCustomCurve sp tp targetId canvasH).c1x =
          (sp.x + NODE_WIDTH) + max 60 (((sp.x + NODE_WIDTH) - tp.x) * (0.2 : ℚ)) ∧
        (mkCustomCurve sp tp targetId canvasH).c2x =
          tp.x - max 60 (((sp.x + NODE_WIDTH) - tp.x) * (0.2 : ℚ))) := by
  intro sp tp targetId canvasH h
  simp only [mkCustomCurve, if_pos h]
  refine ⟨⟨?_, ?_⟩, ?_, ?_, ?_⟩ <;>
    first
      | rfl
      | trivial
      | (intro heq
         rw [if_neg (by rw [heq]; exact lt_irrefl _)])

/-- Witness for C7: a backward edge from depth 1 to depth 0 whose
midpoint lies in the top half, detouring above. -/
theorem C7_backward_detour_witness :
    (⟨Task.mk "s" false [], 376, 0, 1⟩ : NodePosition).depth >
      (⟨Task.mk "t" false [], 0, 0, 0⟩ : NodePosition).depth ∧
    (mkCustomCurve ⟨Task.mk "s" false [], 376, 0, 1⟩ ⟨Task.mk "t" false [], 0, 0, 0⟩
        "t" 500).c1y =
      (if (((0 : ℚ) + NODE_HEIGHT / 2) + ((0 : ℚ) + NODE_HEIGHT / 2)) / 2 < (500 : ℚ) / 2
        then -100 else (500 : ℚ) + 100) :=
  ⟨by norm_num,
    (C7_backward_detour ⟨Task.mk "s" false [], 376, 0, 1⟩ ⟨Task.mk "t" false [], 0, 0, 0⟩
      "t" 500 (by norm_num)).1.1⟩

/-- C9. The custom-connector builder equals the per-pair builder
(conjunct 1, so each overlay pair is handled independently); a pair one
of whose endpoint ids has no entry in the current position list produces
zero curves (conjunct 2, a total function — no error is possible); a
pair with both endpoints present produces exactly one curve (conjunct
3). -/
theorem C9_connector_omission :
    ∀ (ps : List NodePosition) (conns : List (String × List String)) (canvasH : ℚ),
      (customConnectors ps conns canvasH =
        conns.flatMap (fun e => e.2.flatMap (fun t => pairCurves ps e.1 t canvasH))) ∧
      (∀ s t : String, (lookupPos ps s = none ∨ lookupPos ps t = none) →
          pairCurves ps s t canvasH = []) ∧
      (∀ (s t : String) (sp tp : NodePosition),
          lookupPos ps s = some sp → lookupPos ps t = some tp →
          pairCurves ps s t canvasH = [mkCustomCurve sp tp t canvasH]) := by
  intro ps conns canvasH
  refine ⟨?_, ?_, ?_⟩
  · refine List.flatMap_congr ?_
    intro e _
    cases hs : lookupPos ps e.1 with
    | none =>
      have hall : ∀ tids : List String,
          tids.flatMap (fun t => pairCurves ps e.1 t canvasH) = [] := by
        intro tids
        induction tids with
        | nil => rfl
        | cons t0 tids ih =>
          have hpc : pairCurves ps e.1 t0 canvasH = [] := by
            unfold pairCurves
            rw [hs]
          rw [List.flatMap_cons, hpc, List.nil_append, ih]
      simp [hs, hall e.2]
    | some sp =>
      simp only [hs]
      induction e.2 with
      | nil => rfl
      | cons t0 tids ih =>
        simp only [List.filterMap_cons, List.flatMap_cons]
        cases ht : lookupPos ps t0 with
        | none => simpa [pairCurves, hs, ht] using ih
        | some tp => simpa [pairCurves, hs, ht] using ih
  · intro s t h
    unfold pairCurves
    rcases h with h | h
    · rw [h]
    · rw [h]
      cases lookupPos ps s <;> rfl
  · intro s t sp tp hs ht
    simp [pairCurves, hs, ht]

/-- Witness for C9: a single-node position list, with a pair whose
target is missing (conjunct 2) and a pair with both endpoints present
(conjunct 3). -/
theorem C9_connector_omission_witness :
    (lookupPos [⟨Task.mk "a" false [], 0, 0, 0⟩] "gone" = none ∨
        lookupPos [⟨Task.mk "a" false [], 0, 0, 0⟩] "gone" = none) ∧
    pairCurves [⟨Task.mk "a" false [], 0, 0, 0⟩] "a" "gone" 100 = [] ∧
    lookupPos [⟨Task.mk "a" false [], 0, 0, 0⟩] "a" = some ⟨Task.mk "a" false [], 0, 0, 0⟩ ∧
    pairCurves [⟨Task.mk "a" false [], 0, 0, 0⟩] "a" "a" 100 =
      [mkCustomCurve ⟨Task.mk "a" false [], 0, 0, 0⟩ ⟨Task.mk "a" false [], 0, 0, 0⟩
        "a" 100] := by
  have hnone : lookupPos [⟨Task.mk "a" false [], 0, 0, 0⟩] "gone" = none := by
    simp [lookupPos, Task.id]
  have hsome : lookupPos [⟨Task.mk "a" false [], 0, 0, 0⟩] "a" =
      some ⟨Task.mk "a" false [], 0, 0, 0⟩ := by
    simp [lookupPos, Task.id]
  exact ⟨Or.inr hnone,
    (C9_connector_omission [⟨Task.mk "a" false [], 0, 0, 0⟩] [] 100).2.1 "a" "gone"
      (Or.inr hnone),
    hsome,
    (C9_connector_omission [⟨Task.mk "a" false [], 0, 0, 0⟩] [] 100).2.2 "a" "a" _ _
      hsome hsome⟩

/-- C8, counterexample.  The claim says a hit whose id differs from
the draft's `sourceId` always emits one add-connection request.  A node
region carrying the empty id `""` differs from the source id `"src"`,
yet the source's truthiness guard `if (targetId && ...)` rejects it and
nothing is emitted. -/
theorem C8_pointer_up_counterexample :
    ("" : String) ≠ "src" ∧
    (handleMouseUp (some ⟨"src", 0, 0, 0, 0⟩) (some "")).1 = [] := by
  constructor
  · decide
  · rfl

/-- C8, amended.  On pointer-up while a draft connection is active:
if the topmost node region hit carries a *non-empty* id different from
the draft's `sourceId`, exactly one add-connection(sourceId, hitId)
request is emitted; if the hit id equals `sourceId`, or is empty, or no
node region is hit, no request is emitted; in every case the draft
connection state is cleared. -/
theorem C8_pointer_up_amended :
    ∀ (d : DraftConnection) (hit : Option String),
      (∀ tid, hit = some tid → tid ≠ "" → tid ≠ d.sourceId →
          handleMouseUp (some d) hit = ([(d.sourceId, tid)], none)) ∧
      (hit = some d.sourceId → (handleMouseUp (some d) hit).1 = []) ∧
      (∀ tid, hit = some tid → tid = "" → (handleMouseUp (some d) hit).1 = []) ∧
      (hit = none → (handleMouseUp (some d) hit).1 = []) ∧
      (handleMouseUp (some d) hit).2 = none := by
  intro d hit
  refine ⟨?_, ?_, ?_, ?_, ?_⟩
  · rintro tid rfl hne hns
    simp [handleMouseUp, hne, hns]
  · rintro rfl
    simp [handleMouseUp]
  · rintro tid rfl rfl
    simp [handleMouseUp]
  · rintro rfl
    rfl
  · cases hit with
    | none => rfl
    | some tid =>
      by_cases h : tid ≠ "" ∧ tid ≠ d.sourceId <;> simp [handleMouseUp, h]

/-- Witness for the amended C8: dropping on node `"c"` while drawing
from `"b"` emits exactly `add connection(b, c)`; dropping on `"b"`
itself or on empty background emits nothing; the draft is cleared. -/
theorem C8_pointer_up_amended_witness :
    (some "c" = some "c" ∧ ("c" : String) ≠ "" ∧ ("c" : String) ≠ "b") ∧
    handleMouseUp (some ⟨"b", 0, 0, 0, 0⟩) (some "c") = ([("b", "c")], none) ∧
    (handleMouseUp (some ⟨"b", 0, 0, 0, 0⟩) (some "b")).1 = [] ∧
    (handleMouseUp (some ⟨"b", 0, 0, 0, 0⟩) none).1 = [] ∧
    (handleMouseUp (some ⟨"b", 0, 0, 0, 0⟩) (some "c")).2 = none :=
  ⟨⟨rfl, by decide, by decide⟩,
    (C8_pointer_up_amended ⟨"b", 0, 0, 0, 0⟩ (some "c")).1 "c" rfl (by decide) (by decide),
    (C8_pointer_up_amended ⟨"b", 0, 0, 0, 0⟩ (some "b")).2.1 rfl,
    (C8_pointer_up_amended ⟨"b", 0, 0, 0, 0⟩ none).2.2.2.1 rfl,
    (C8_pointer_up_amended ⟨"b", 0, 0, 0, 0⟩ (some "c")).2.2.2.2⟩

theorem visTriples_head (i : String) (c : Bool) (cs : List Task) (d : ℕ) :
    visTriples (.mk i c cs) d =
      (i, d, (d : ℚ) * (NODE_WIDTH + H_SPACING)) :: descTriples (.mk i c cs) d := rfl

mutual

/-- The `(id, depth, x)` projection of the position list is `visTriples`
— independent of the starting ordinate `y`. -/
theorem layout_map_triple : ∀ (t : Task) (d : ℕ) (y : ℚ),
    (layout t d y).map (fun q => (q.task.id, q.depth, q.x)) = visTriples t d
  | .mk i c cs, d, y => by
    cases hbool : (!c && !cs.isEmpty) with
    | false => simp [layout, visTriples, hbool, Task.id]
    | true =>
      simp only [layout, visTriples, hbool, if_pos rfl, List.map_cons, if_true]
      rw [layoutChildren_map_triple cs (d + 1) y]
      rfl

theorem layoutChildren_map_triple : ∀ (cs : List Task) (d : ℕ) (y : ℚ),
    (layoutChildren cs d y).map (fun q => (q.task.id, q.depth, q.x)) = visTriplesList cs d
  | [], _, _ => rfl
  | c :: cs, d, y => by
    simp only [layoutChildren, visTriplesList, List.map_append]
    rw [layout_map_triple c d y,
      layoutChildren_map_triple cs d (y + subtreeHeight c + V_SPACING)]

end

theorem layoutForest_map_triple : ∀ (ts : List Task) (y : ℚ),
    (layoutForest ts y).map (fun q => (q.task.id, q.depth, q.x)) = visTriplesList ts 0
  | [], _ => rfl
  | t :: ts, y => by
    simp only [layoutForest, visTriplesList, List.map_append]
    rw [layout_map_triple t 0 y,
      layoutForest_map_triple ts (y + subtreeHeight t + V_SPACING * 2)]

mutual

/-- Setting the collapsed flag at the addressed node leaves the
earlier-sibling position blocks along the path untouched. -/
theorem earlierSibPos_collapse : ∀ (t : Task) (p : List ℕ) (d : ℕ) (y : ℚ),
    earlierSibPos (setCollapsedAt t p) p d y = earlierSibPos t p d y
  | .mk i c cs, [], _, _ => rfl
  | .mk i c cs, j :: p, d, y => by
    simp only [setCollapsedAt, earlierSibPos]
    exact earlierSibPosChildren_collapse cs j p (d + 1) y

theorem earlierSibPosChildren_collapse : ∀ (cs : List Task) (j : ℕ) (p : List ℕ)
    (d : ℕ) (y : ℚ),
    earlierSibPosChildren (setCollapsedChildren cs j p) j p d y =
      earlierSibPosChildren cs j p d y
  | [], _, _, _, _ => rfl
  | c :: cs, 0, p, d, y => by
    simp only [setCollapsedChildren, earlierSibPosChildren]
    exact earlierSibPos_collapse c p d y
  | c :: cs, j + 1, p, d, y => by
    simp only [setCollapsedChildren, earlierSibPosChildren]
    rw [earlierSibPosChildren_collapse cs j p d (y + subtreeHeight c + V_SPACING)]

end

theorem earlierSibPosForest_collapse : ∀ (ts : List Task) (path : List ℕ) (y : ℚ),
    earlierSibPosForest (collapseForest ts path) path y = earlierSibPosForest ts path y
  | ts, [], y => rfl
  | [], j :: p, y => by cases j <;> rfl
  | t :: ts, 0 :: p, y => by
    simp only [collapseForest, setCollapsedChildren, earlierSibPosForest]
    exact earlierSibPos_collapse t p 0 y
  | t :: ts, (j + 1) :: p, y => by
    simp only [collapseForest, setCollapsedChildren, earlierSibPosForest]
    have := earlierSibPosForest_collapse ts (j :: p) (y + subtreeHeight t + V_SPACING * 2)
    simp only [collapseForest] at this
    rw [this]

mutual

/-- Collapsing the addressed node keeps the whole path visible (the flag
changes only at the path's end, which `visiblePath` does not test). -/
theorem visiblePath_setCollapsed : ∀ (t : Task) (p : List ℕ),
    visiblePathTask t p = true → visiblePathTask (setCollapsedAt t p) p = true
  | .mk i c cs, [], _ => rfl
  | .mk i c cs, j :: p, h => by
    simp only [visiblePathTask, Bool.and_eq_true] at h
    simp only [setCollapsedAt, visiblePathTask, Bool.and_eq_true]
    exact ⟨h.1, visiblePathChildren_setCollapsed cs j p h.2⟩

theorem visiblePathChildren_setCollapsed : ∀ (cs : List Task) (j : ℕ) (p : List ℕ),
    visiblePathChildren cs j p = true →
      visiblePathChildren (setCollapsedChildren cs j p) j p = true
  | [], _, _, h => by simp [visiblePathChildren] at h
  | c :: cs, 0, p, h => by
    simp only [visiblePathChildren] at h
    simp only [setCollapsedChildren, visiblePathChildren]
    exact visiblePath_setCollapsed c p h
  | c :: cs, j + 1, p, h => by
    simp only [visiblePathChildren] at h
    simp only [setCollapsedChildren, visiblePathChildren]
    exact visiblePathChildren_setCollapsed cs j p h

end

theorem visiblePathForest_collapse : ∀ (ts : List Task) (path : List ℕ),
    visiblePathForest ts path = true →
      visiblePathForest (collapseForest ts path) path = true
  | ts, [], h => by simp [visiblePathForest] at h
  | ts, j :: p, h => by
    simp only [visiblePathForest] at h ⊢
    exact visiblePathChildren_setCollapsed ts j p h

mutual

/-- Every earlier-sibling position along a visible path is one of the
positions of the full layout (with the same `x` and `y`). -/
theorem earlierSibPos_mem : ∀ (t : Task) (p : List ℕ) (d : ℕ) (y : ℚ),
    visiblePathTask t p = true → ∀ q ∈ earlierSibPos t p d y, q ∈ layout t d y
  | .mk i c cs, [], d, y, _, q, hq => absurd hq (by simp [earlierSibPos])
  | .mk i c cs, j :: p, d, y, h, q, hq => by
    simp only [visiblePathTask, Bool.and_eq_true, Bool.not_eq_true'] at h
    obtain ⟨hc, hvpc⟩ := h
    subst hc
    cases cs with
    | nil => simp [visiblePathChildren] at hvpc
    | cons c0 cs0 =>
      have hq' : q ∈ layoutChildren (c0 :: cs0) (d + 1) y :=
        earlierSibPosChildren_mem (c0 :: cs0) j p (d + 1) y hvpc q
          (by simpa [earlierSibPos] using hq)
      simp only [layout]
      refine List.mem_cons_of_mem _ ?_
      have hcond : (!false && !(c0 :: cs0).isEmpty) = true := rfl
      rwa [if_pos hcond]

theorem earlierSibPosChildren_mem : ∀ (cs : List Task) (j : ℕ) (p : List ℕ) (d : ℕ) (y : ℚ),
    visiblePathChildren cs j p = true →
      ∀ q ∈ earlierSibPosChildren cs j p d y, q ∈ layoutChildren cs d y
  | [], _, _, _, _, h, _, _ => by simp [visiblePathChildren] at h
  | c :: cs, 0, p, d, y, h, q, hq => by
    simp only [visiblePathChildren] at h
    have := earlierSibPos_mem c p d y h q (by simpa [earlierSibPosChildren] using hq)
    simp only [layoutChildren]
    exact List.mem_append_left _ this
  | c :: cs, j + 1, p, d, y, h, q, hq => by
    simp only [visiblePathChildren] at h
    rcases (by simpa [earlierSibPosChildren] using hq :
        q ∈ layout c d y ∨
          q ∈ earlierSibPosChildren cs j p d (y + subtreeHeight c + V_SPACING)) with
        hq' | hq'
    · simp only [layoutChildren]
      exact List.mem_append_left _ hq'
    · have := earlierSibPosChildren_mem cs j p d (y + subtreeHeight c + V_SPACING) h q hq'
      simp only [layoutChildren]
      exact List.mem_append_right _ this

end

theorem earlierSibPosForest_mem : ∀ (ts : List Task) (path : List ℕ) (y : ℚ),
    visiblePathForest ts path = true →
      ∀ q ∈ earlierSibPosForest ts path y, q ∈ layoutForest ts y
  | _, [], _, h, _, _ => by simp [visiblePathForest] at h
  | [], _ :: _, _, h, _, _ => by simp [visiblePathForest, visiblePathChildren] at h
  | t :: ts, 0 :: p, y, h, q, hq => by
    simp only [visiblePathForest, visiblePathChildren] at h
    have := earlierSibPos_mem t p 0 y h q (by simpa [earlierSibPosForest] using hq)
    simp only [layoutForest]
    exact List.mem_append_left _ this
  | t :: ts, (j + 1) :: p, y, h, q, hq => by
    simp only [visiblePathForest, visiblePathChildren] at h
    rcases (by simpa [earlierSibPosForest] using hq :
        q ∈ layout t 0 y ∨
          q ∈ earlierSibPosForest ts (j :: p) (y + subtreeHeight t + V_SPACING * 2)) with
        hq' | hq'
    · simp only [layoutForest]
      exact List.mem_append_left _ hq'
    · have := earlierSibPosForest_mem ts (j :: p)
        (y + subtreeHeight t + V_SPACING * 2) (by simpa [visiblePathForest] using h) q hq'
      simp only [layoutForest]
      exact List.mem_append_right _ this

theorem setCollapsedChildren_isEmpty (c : Task) (cs : List Task) (j : ℕ) (p : List ℕ) :
    (setCollapsedChildren (c :: cs) j p).isEmpty = false := by
  cases j <;> rfl

mutual

/-- Collapsing the visible node at path `p` excises exactly the block of
its visible descendants from the `(id, depth, x)` pre-order sequence:
the sequence before is `pre ++ target :: (descendants ++ suf)` and
after is `pre ++ target :: suf`, so every surviving node keeps its id,
depth and `x` and its relative order. -/
theorem visTriples_collapse : ∀ (t : Task) (p : List ℕ) (d : ℕ),
    visiblePathTask t p = true → ∀ target, nodeAtTask t p = some target →
    ∃ pre suf,
      visTriples t d =
        pre ++ (target.id, d + p.length,
            ((d + p.length : ℕ) : ℚ) * (NODE_WIDTH + H_SPACING)) ::
          (descTriples target (d + p.length) ++ suf) ∧
      visTriples (setCollapsedAt t p) d =
        pre ++ (target.id, d + p.length,
            ((d + p.length : ℕ) : ℚ) * (NODE_WIDTH + H_SPACING)) :: suf
  | .mk i c cs, [], d, _, target, htgt => by
    obtain rfl : Task.mk i c cs = target := by simpa [nodeAtTask] using htgt
    refine ⟨[], [], ?_, ?_⟩
    · simp [visTriples_head, Task.id]
    · simp [setCollapsedAt, visTriples, Task.id]
  | .mk i c cs, j :: p, d, h, target, htgt => by
    simp only [visiblePathTask, Bool.and_eq_true, Bool.not_eq_true'] at h
    obtain ⟨hc, hvpc⟩ := h
    subst hc
    cases cs with
    | nil => simp [visiblePathChildren] at hvpc
    | cons c0 cs0 =>
      have htgt' : nodeAtChildren (c0 :: cs0) j p = some target := by
        simpa [nodeAtTask] using htgt
      obtain ⟨pre, suf, h1, h2⟩ :=
        visTriplesList_collapse (c0 :: cs0) j p (d + 1) hvpc target htgt'
      have hD : d + 1 + p.length = d + (j :: p).length := by
        simp only [List.length_cons]
        omega
      rw [hD] at h1 h2
      refine ⟨(i, d, (d : ℚ) * (NODE_WIDTH + H_SPACING)) :: pre, suf, ?_, ?_⟩
      · rw [visTriples_head,
          show descTriples (Task.mk i false (c0 :: cs0)) d =
            visTriplesList (c0 :: cs0) (d + 1) from rfl, h1]
        simp [List.cons_append]
      · rw [show setCollapsedAt (Task.mk i false (c0 :: cs0)) (j :: p) =
            Task.mk i false (setCollapsedChildren (c0 :: cs0) j p) from rfl,
          visTriples_head]
        have hdesc : descTriples
            (Task.mk i false (setCollapsedChildren (c0 :: cs0) j p)) d =
            visTriplesList (setCollapsedChildren (c0 :: cs0) j p) (d + 1) := by
          simp [descTriples, Task.collapsed, Task.children,
            setCollapsedChildren_isEmpty c0 cs0 j p]
        rw [hdesc, h2]
        simp [List.cons_append]

theorem visTriplesList_collapse : ∀ (cs : List Task) (j : ℕ) (p : List ℕ) (d : ℕ),
    visiblePathChildren cs j p = true → ∀ target, nodeAtChildren cs j p = some target →
    ∃ pre suf,
      visTriplesList cs d =
        pre ++ (target.id, d + p.length,
            ((d + p.length : ℕ) : ℚ) * (NODE_WIDTH + H_SPACING)) ::
          (descTriples target (d + p.length) ++ suf) ∧
      visTriplesList (setCollapsedChildren cs j p) d =
        pre ++ (target.id, d + p.length,
            ((d + p.length : ℕ) : ℚ) * (NODE_WIDTH + H_SPACING)) :: suf
  | [], _, _, _, h, _, _ => by simp [visiblePathChildren] at h
  | c :: cs, 0, pth, d, h, target, htgt => by
    simp only [visiblePathChildren] at h
    have htgt' : nodeAtTask c pth = some target := by simpa [nodeAtChildren] using htgt
    obtain ⟨pre, suf, h1, h2⟩ := visTriples_collapse c pth d h target htgt'
    refine ⟨pre, suf ++ visTriplesList cs d, ?_, ?_⟩
    · simp only [visTriplesList, h1]
      simp [List.append_assoc, List.cons_append]
    · simp only [setCollapsedChildren, visTriplesList, h2]
      simp [List.append_assoc, List.cons_append]
  | c :: cs, j + 1, pth, d, h, target, htgt => by
    simp only [visiblePathChildren] at h
    have htgt' : nodeAtChildren cs j pth = some target := by
      simpa [nodeAtChildren] using htgt
    obtain ⟨pre, suf, h1, h2⟩ := visTriplesList_collapse cs j pth d h target htgt'
    refine ⟨visTriples c d ++ pre, suf, ?_, ?_⟩
    · simp only [visTriplesList, h1]
      simp [List.append_assoc]
    · simp only [setCollapsedChildren, visTriplesList, h2]
      simp [List.append_assoc]

end

theorem visTriplesForest_collapse : ∀ (ts : List Task) (j : ℕ) (p : List ℕ),
    visiblePathForest ts (j :: p) = true →
    ∀ target, nodeAtForest ts (j :: p) = some target →
    ∃ pre suf,
      visTriplesList ts 0 =
        pre ++ (target.id, p.length, ((p.length : ℕ) : ℚ) * (NODE_WIDTH + H_SPACING)) ::
          (descTriples target p.length ++ suf) ∧
      visTriplesList (collapseForest ts (j :: p)) 0 =
        pre ++ (target.id, p.length, ((p.length : ℕ) : ℚ) * (NODE_WIDTH + H_SPACING)) ::
          suf := by
  intro ts j p h target htgt
  have h' : visiblePathChildren ts j p = true := by simpa [visiblePathForest] using h
  have htgt' : nodeAtChildren ts j p = some target := by simpa [nodeAtForest] using htgt
  obtain ⟨pre, suf, h1, h2⟩ := visTriplesList_collapse ts j p 0 h' target htgt'
  rw [show (0 : ℕ) + p.length = p.length from by omega] at h1 h2
  exact ⟨pre, suf, h1, by simpa [collapseForest] using h2⟩

/-- C5, counterexample.  The claim says the collapsed node's
ancestors keep identical x and y coordinates.  They do not keep y: in
`exampleForest`, collapsing `B` (path `[0, 0]`, a visible node) moves
its ancestor `A` — the first emitted position in both layouts — from
`y = 140` to `y = 70`, because `A` re-centers on its shrunken subtree
(height 360 before, 220 after). -/
theorem C5_collapse_stability_counterexample :
    visiblePathForest exampleForest [0, 0] = true ∧
    ((layoutForest exampleForest 0).map (fun q => (q.task.id, q.y))).head? =
      some ("A", 140) ∧
    ((layoutForest (collapseForest exampleForest [0, 0]) 0).map
        (fun q => (q.task.id, q.y))).head? = some ("A", 70) := by
  refine ⟨rfl, ?_, ?_⟩ <;>
    norm_num [exampleForest, layoutForest, layout, layoutChildren, subtreeHeight,
      heightsSum, collapseForest, setCollapsedChildren, setCollapsedAt, Task.id,
      NODE_HEIGHT, NODE_WIDTH, H_SPACING, V_SPACING]

/-- C5, amended. Collapsing a visible node (addressed by the path
`j :: p`) removes exactly its visible descendants from the position
list: the emitted `(id, depth, x)` sequence of the new layout is the old
sequence with the target's descendant block excised, so every surviving
node keeps its id, depth, `x` and relative order (conjunct 1); the
earlier siblings of the collapsed node and of each of its ancestors,
together with their entire subtrees, keep identical positions — their
position blocks are unchanged (conjunct 2) and are genuine positions of
both the old and the new layout (conjuncts 3 and 4).  The collapsed
node itself and its ancestors keep their `x` (conjunct 1) but may
re-center vertically, and nodes emitted after the collapsed subtree may
shift vertically. -/
theorem C5_collapse_stability :
    ∀ (ts : List Task) (j : ℕ) (p : List ℕ) (target : Task),
      visiblePathForest ts (j :: p) = true →
      nodeAtForest ts (j :: p) = some target →
      (∃ pre suf,
        (layoutForest ts 0).map (fun q => (q.task.id, q.depth, q.x)) =
          pre ++ (target.id, p.length,
              ((p.length : ℕ) : ℚ) * (NODE_WIDTH + H_SPACING)) ::
            (descTriples target p.length ++ suf) ∧
        (layoutForest (collapseForest ts (j :: p)) 0).map
            (fun q => (q.task.id, q.depth, q.x)) =
          pre ++ (target.id, p.length,
              ((p.length : ℕ) : ℚ) * (NODE_WIDTH + H_SPACING)) :: suf) ∧
      earlierSibPosForest (collapseForest ts (j :: p)) (j :: p) 0 =
        earlierSibPosForest ts (j :: p) 0 ∧
      (∀ q ∈ earlierSibPosForest ts (j :: p) 0, q ∈ layoutForest ts 0) ∧
      (∀ q ∈ earlierSibPosForest ts (j :: p) 0,
          q ∈ layoutForest (collapseForest ts (j :: p)) 0) := by
  intro ts j p target h htgt
  refine ⟨?_, earlierSibPosForest_collapse ts (j :: p) 0,
    earlierSibPosForest_mem ts (j :: p) 0 h, ?_⟩
  · obtain ⟨pre, suf, h1, h2⟩ := visTriplesForest_collapse ts j p h target htgt
    exact ⟨pre, suf, by rw [layoutForest_map_triple]; exact h1,
      by rw [layoutForest_map_triple]; exact h2⟩
  · intro q hq
    rw [← earlierSibPosForest_collapse ts (j :: p) 0] at hq
    exact earlierSibPosForest_mem (collapseForest ts (j :: p)) (j :: p) 0
      (visiblePathForest_collapse ts (j :: p) h) q hq

/-- Witness for the amended C5 at `exampleForest`, collapsing `B`. -/
theorem C5_collapse_stability_witness :
    visiblePathForest exampleForest [0, 0] = true ∧
    nodeAtForest exampleForest [0, 0] =
      some (Task.mk "B" false [Task.mk "b1" false [], Task.mk "b2" false []]) ∧
    earlierSibPosForest (collapseForest exampleForest [0, 0]) [0, 0] 0 =
      earlierSibPosForest exampleForest [0, 0] 0 :=
  ⟨rfl, rfl,
    (C5_collapse_stability exampleForest 0 [0]
      (Task.mk "B" false [Task.mk "b1" false [], Task.mk "b2" false []])
      rfl rfl).2.1⟩

end Habbit
